import Mathlib

/-!
# Verification of the herb-provenance hash-linked ledger

A shallow embedding of the ledger core of `main.py`: SHA-256 (the digest
`hashlib.sha256(...).hexdigest()` computes), the order-preserving JSON
encoding `json.dumps` applies to a payload dict, the `HerbBlock` and
`HerbBlockchain` classes, and the hash-lookup scan of the verification
route.  Machine words are `Nat` with explicit reduction modulo `2 ^ 32`;
Python's time values enter as explicit `timestamp` arguments, and a
payload value `json.dumps` cannot encode is a distinguished constructor,
so fallible operations return `Option`.
-/

set_option maxRecDepth 100000

namespace HerbLedger

/-- Reduce a `Nat` to a 32-bit word, the wrapping `% 2**32` of the spec. -/
def w32 (x : Nat) : Nat := x % 4294967296

/-- Right rotation of a 32-bit word by `n` places. -/
def rotr (n x : Nat) : Nat := w32 ((x >>> n) ||| (x <<< (32 - n)))

/-- `Ch(e,f,g)`: bitwise choice, with complement as xor against all-ones. -/
def ch (x y z : Nat) : Nat := (x &&& y) ^^^ ((x ^^^ 4294967295) &&& z)

/-- `Maj(a,b,c)`: bitwise majority. -/
def maj (x y z : Nat) : Nat := (x &&& y) ^^^ (x &&& z) ^^^ (y &&& z)

/-- Big sigma 0. -/
def bsig0 (x : Nat) : Nat := rotr 2 x ^^^ rotr 13 x ^^^ rotr 22 x

/-- Big sigma 1. -/
def bsig1 (x : Nat) : Nat := rotr 6 x ^^^ rotr 11 x ^^^ rotr 25 x

/-- Small sigma 0, used in the message schedule. -/
def ssig0 (x : Nat) : Nat := rotr 7 x ^^^ rotr 18 x ^^^ (x >>> 3)

/-- Small sigma 1, used in the message schedule. -/
def ssig1 (x : Nat) : Nat := rotr 17 x ^^^ rotr 19 x ^^^ (x >>> 10)

/-- The 64 SHA-256 round constants K of FIPS 180-4 section 4.2.2 (the
fractional parts of the cube roots of the first 64 primes), in decimal. -/
def sha256K : List Nat :=
  [1116352408, 1899447441, 3049323471, 3921009573, 961987163, 1508970993,
   2453635748, 2870763221, 3624381080, 310598401, 607225278, 1426881987,
   1925078388, 2162078206, 2614888103, 3248222580, 3835390401, 4022224774,
   264347078, 604807628, 770255983, 1249150122, 1555081692, 1996064986,
   2554220882, 2821834349, 2952996808, 3210313671, 3336571891, 3584528711,
   113926993, 338241895, 666307205, 773529912, 1294757372, 1396182291,
   1695183700, 1986661051, 2177026350, 2456956037, 2730485921, 2820302411,
   3259730800, 3345764771, 3516065817, 3600352804, 4094571909, 275423344,
   430227734, 506948616, 659060556, 883997877, 958139571, 1322822218,
   1537002063, 1747873779, 1955562222, 2024104815, 2227730452, 2361852424,
   2428436474, 2756734187, 3204031479, 3329325298]

/-- UTF-8 bytes of a single code point. -/
def utf8Bytes (c : Nat) : List Nat :=
  if c < 128 then [c]
  else if c < 2048 then [192 + c / 64, 128 + c % 64]
  else if c < 65536 then [224 + c / 4096, 128 + (c / 64) % 64, 128 + c % 64]
  else [240 + c / 262144, 128 + (c / 4096) % 64, 128 + (c / 64) % 64, 128 + c % 64]

/-- The UTF-8 byte sequence of a string, Python's `str.encode()`. -/
def strBytes (s : String) : List Nat :=
  (s.data.map (fun ch => utf8Bytes ch.toNat)).flatten

/-- Big-endian 8-byte encoding of a length-in-bits field. -/
def beBytes8 (n : Nat) : List Nat :=
  (List.range 8).map (fun i => (n >>> (8 * (7 - i))) % 256)

/-- SHA-256 padding: append `0x80`, zeros to 56 mod 64, then the 64-bit
big-endian bit length (FIPS 180-4 section 5.1.1). -/
def padBytes (msg : List Nat) : List Nat :=
  msg ++ (128 :: List.replicate ((120 - ((msg.length + 1) % 64)) % 64) 0)
      ++ beBytes8 (msg.length * 8)

/-- Fold a byte list into big-endian 32-bit words, four bytes per word. -/
def beWords : List Nat → List Nat
  | b0 :: b1 :: b2 :: b3 :: rest =>
      (b0 * 16777216 + b1 * 65536 + b2 * 256 + b3) :: beWords rest
  | _ => []

/-- Split a byte list into 64-byte chunks; the first argument is fuel,
sufficient whenever it is at least the list length. -/
def chunksGo : Nat → List Nat → List (List Nat)
  | 0, _ => []
  | _, [] => []
  | n + 1, l => l.take 64 :: chunksGo n (l.drop 64)

/-- Split a byte list into 64-byte chunks. -/
def chunks64 (l : List Nat) : List (List Nat) :=
  chunksGo l.length l

/-- The next message-schedule word, taken from the reversed schedule built
so far (`rws.head` is the most recent word). -/
def nextW (rws : List Nat) : Nat :=
  w32 (rws.getD 15 0 + ssig0 (rws.getD 14 0) + rws.getD 6 0 + ssig1 (rws.getD 1 0))

/-- Extend a reversed message schedule by `n` words. -/
def extendW : Nat → List Nat → List Nat
  | 0, rws => rws
  | n + 1, rws => extendW n (nextW rws :: rws)

/-- The 64-word message schedule of one 16-word chunk. -/
def schedule (ws : List Nat) : List Nat :=
  (extendW 48 ws.reverse).reverse

/-- The eight working variables of the SHA-256 compression loop. -/
structure Hash8 where
  a : Nat
  b : Nat
  c : Nat
  d : Nat
  e : Nat
  f : Nat
  g : Nat
  h : Nat
deriving DecidableEq

/-- One round of the compression loop, consuming a round constant and a
schedule word. -/
def round (st : Hash8) (kw : Nat × Nat) : Hash8 :=
  let t1 := w32 (st.h + bsig1 st.e + ch st.e st.f st.g + kw.1 + kw.2)
  let t2 := w32 (bsig0 st.a + maj st.a st.b st.c)
  ⟨w32 (t1 + t2), st.a, st.b, st.c, w32 (st.d + t1), st.e, st.f, st.g⟩

/-- Compress one 64-byte chunk into the running eight-word state. -/
def compress (st : Hash8) (chunk : List Nat) : Hash8 :=
  let fin := (List.zip sha256K (schedule (beWords chunk))).foldl round st
  ⟨w32 (st.a + fin.a), w32 (st.b + fin.b), w32 (st.c + fin.c), w32 (st.d + fin.d),
   w32 (st.e + fin.e), w32 (st.f + fin.f), w32 (st.g + fin.g), w32 (st.h + fin.h)⟩

/-- The initial compression state: the eight words H of FIPS 180-4
section 5.3.3 (fractional parts of the square roots of the first eight
primes), in decimal. -/
def initState : Hash8 :=
  ⟨1779033703, 3144134277, 1013904242, 2773480762,
   1359893119, 2600822924, 528734635, 1541459225⟩

/-- One lowercase hexadecimal digit. -/
def hexDigit (n : Nat) : Char :=
  if n < 10 then Char.ofNat (48 + n) else Char.ofNat (87 + n)

/-- Eight lowercase hex digits of a 32-bit word, most significant first. -/
def hex8 (x : Nat) : String :=
  String.mk ((List.range 8).map (fun i => hexDigit ((x >>> (28 - 4 * i)) % 16)))

/-- SHA-256 of a byte list, as the 64-character lowercase hex digest. -/
def sha256Bytes (msg : List Nat) : String :=
  let st := ((chunks64 (padBytes msg)).foldl compress initState)
  hex8 st.a ++ hex8 st.b ++ hex8 st.c ++ hex8 st.d
    ++ hex8 st.e ++ hex8 st.f ++ hex8 st.g ++ hex8 st.h

/-- `hashlib.sha256(s.encode()).hexdigest()`. -/
def sha256hex (s : String) : String := sha256Bytes (strBytes s)

/-- Four lowercase hex digits, for a JSON escape. -/
def hex4 (n : Nat) : String :=
  String.mk ((List.range 4).map (fun i => hexDigit ((n >>> (12 - 4 * i)) % 16)))

/-- JSON encoding of one character, as `json.dumps` emits it with its
default `ensure_ascii=True`: printable ASCII other than quote and
backslash passes through, the short escapes cover the usual controls, and
everything else becomes a `u`-escape (a surrogate pair above `0xFFFF`). -/
def jsonEscChar (c : Char) : String :=
  let n := c.toNat
  if n = 34 then "\\\""
  else if n = 92 then "\\\\"
  else if 32 ≤ n && n ≤ 126 then String.mk [c]
  else if n = 8 then "\\b"
  else if n = 9 then "\\t"
  else if n = 10 then "\\n"
  else if n = 12 then "\\f"
  else if n = 13 then "\\r"
  else if n < 65536 then "\\u" ++ hex4 n
  else "\\u" ++ hex4 (55296 + (n - 65536) / 1024) ++ "\\u" ++ hex4 (56320 + (n - 65536) % 1024)

/-- A JSON string literal: quote, escaped characters, quote. -/
def jsonQuote (s : String) : String :=
  "\"" ++ String.join (s.data.map jsonEscChar) ++ "\""

/-- A value a payload dict can hold.  `pstr` and `pint` are the
serializable scalars the routes store; `pobj` stands for a Python object
`json.dumps` cannot encode (it raises `TypeError` there). -/
inductive PVal where
  | pstr (s : String)
  | pint (n : Int)
  | pobj (name : String)
deriving DecidableEq

/-- A payload: the key-to-value entries of a Python dict in insertion
order (Python dicts preserve it, and `json.dumps` emits it). -/
abbrev Payload := List (String × PVal)

/-- JSON encoding of one payload value; `none` models the `TypeError`
`json.dumps` raises on a value it cannot encode. -/
def dumpVal : PVal → Option String
  | .pstr s => some (jsonQuote s)
  | .pint n => some (toString n)
  | .pobj _ => none

/-- The `"key": value` fragments of a payload, in insertion order. -/
def dumpPairs : Payload → Option (List String)
  | [] => some []
  | (k, v) :: rest => do
      let vs ← dumpVal v
      let rs ← dumpPairs rest
      return (jsonQuote k ++ ": " ++ vs) :: rs

/-- `json.dumps(data)` with its default separators and key order: the
entries in dict insertion order, or `none` when a value is not
serializable. -/
def jsonDumps (p : Payload) : Option String := do
  let parts ← dumpPairs p
  return "\x7b" ++ String.intercalate ", " parts ++ "\x7d"

/-- A `HerbBlock` as stored: the four content fields plus the `hash`
attribute the constructor assigns. -/
structure HerbBlock where
  index : Nat
  timestamp : String
  data : Payload
  previous_hash : String
  hash : String
deriving DecidableEq

/-- The digest of `HerbBlock.calculate_hash` as a function of the four
content fields: SHA-256 of the concatenation the f-string
`f"{self.index}{self.timestamp}{json.dumps(self.data)}{self.previous_hash}"`
builds; `none` when the payload is not serializable (the `TypeError`
propagates out of `calculate_hash`). -/
def calcHash (index : Nat) (timestamp : String) (data : Payload)
    (previous_hash : String) : Option String := do
  let ds ← jsonDumps data
  return sha256hex (toString index ++ timestamp ++ ds ++ previous_hash)

/-- `HerbBlock.calculate_hash` applied to a block's stored fields. -/
def calculate_hash (b : HerbBlock) : Option String :=
  calcHash b.index b.timestamp b.data b.previous_hash

/-- The `HerbBlock` constructor: stores the four fields and assigns
`self.hash = self.calculate_hash()`; `none` when serialization of the
payload raises. -/
def HerbBlock.make (index : Nat) (timestamp : String) (data : Payload)
    (previous_hash : String) : Option HerbBlock := do
  let h ← calcHash index timestamp data previous_hash
  return ⟨index, timestamp, data, previous_hash, h⟩

/-- The genesis payload literal. -/
def genesisData : Payload :=
  [("message", PVal.pstr "Genesis Block for Herb Authentication")]

/-- `HerbBlockchain.create_genesis_block`, with the construction-time
timestamp passed in for `datetime.datetime.now().isoformat()`.  The
genesis payload is a serializable literal, so the constructor cannot
raise and the block is returned directly. -/
def create_genesis_block (ts : String) : HerbBlock :=
  { index := 0, timestamp := ts, data := genesisData, previous_hash := "0",
    hash := sha256hex (toString (0 : Nat) ++ ts
      ++ "\x7b\"message\": \"Genesis Block for Herb Authentication\"\x7d" ++ "0") }

/-- The chain: the `self.chain` list of a `HerbBlockchain`. -/
structure HerbBlockchain where
  chain : List HerbBlock
deriving DecidableEq

/-- The `HerbBlockchain` constructor: a fresh chain holding exactly the
genesis block. -/
def HerbBlockchain.init (ts : String) : HerbBlockchain :=
  ⟨[create_genesis_block ts]⟩

/-- A placeholder for `self.chain[-1]` on an empty chain, where Python
would raise `IndexError`; every constructed chain is non-empty, so it is
never reached from the operations below. -/
def emptyBlock : HerbBlock := ⟨0, "", [], "", ""⟩

/-- `HerbBlockchain.get_latest_block`: the last element of the chain. -/
def get_latest_block (c : HerbBlockchain) : HerbBlock :=
  c.chain.getLastD emptyBlock

/-- `HerbBlockchain.add_block`: read the tail, construct a block at index
`len(self.chain)` linked to the tail's hash, append it, return it.  When
construction raises (unserializable payload), the `none` propagates and
the chain is left as it was. -/
def add_block (c : HerbBlockchain) (ts : String) (herb_data : Payload) :
    Option (HerbBlockchain × HerbBlock) := do
  let previous_block := get_latest_block c
  let new_block ← HerbBlock.make c.chain.length ts herb_data previous_block.hash
  return (⟨c.chain ++ [new_block]⟩, new_block)

/-- The loop body sequence of `is_chain_valid` from position 1 on:
`prev` is the block before the head of the remaining list.  A `none`
models `calculate_hash` raising on an unserializable stored payload. -/
def validFrom (prev : HerbBlock) : List HerbBlock → Option Bool
  | [] => some true
  | cur :: rest => do
      let ch ← calculate_hash cur
      if cur.hash ≠ ch then return false
      else if cur.previous_hash ≠ prev.hash then return false
      else validFrom cur rest

/-- `HerbBlockchain.is_chain_valid`: the `for i in range(1, len(...))`
loop; a chain of length at most one passes vacuously. -/
def is_chain_valid (c : HerbBlockchain) : Option Bool :=
  match c.chain with
  | [] => some true
  | b :: rest => validFrom b rest

/-- The lookup scan of the `/api/verify/<block_hash>` route: the first
block whose `hash` equals the query exactly, or `none` for the
`Block not found` response. -/
def findByHash (c : HerbBlockchain) (block_hash : String) : Option HerbBlock :=
  c.chain.find? (fun block => block.hash == block_hash)

/-- The chains the program can build: a fresh `HerbBlockchain` followed
by any finite sequence of successful `add_block` calls, with arbitrary
timestamps supplied at each step. -/
inductive Reachable : HerbBlockchain → Prop
  | init (ts : String) : Reachable (HerbBlockchain.init ts)
  | step (c : HerbBlockchain) (ts : String) (p : Payload)
      (c' : HerbBlockchain) (b : HerbBlock) :
      Reachable c → add_block c ts p = some (c', b) → Reachable c'

/-- `add_block` with the raised-exception case defaulted away, used to
build concrete chains in closed statements. -/
def addD (c : HerbBlockchain) (ts : String) (p : Payload) :
    HerbBlockchain × HerbBlock :=
  (add_block c ts p).getD (c, emptyBlock)

/-- Reassign a block's stored `hash` to the digest recomputed from its
current fields, the re-signing move of the tamper scenarios. -/
def resign (b : HerbBlock) : HerbBlock :=
  { b with hash := (calculate_hash b).getD b.hash }

/-- Replace the block at position `i`, the field-mutation move of the
tamper scenarios. -/
def setBlock (c : HerbBlockchain) (i : Nat) (b : HerbBlock) : HerbBlockchain :=
  ⟨c.chain.set i b⟩

/-- Replace the final (tail) block. -/
def setTail (c : HerbBlockchain) (b : HerbBlock) : HerbBlockchain :=
  ⟨c.chain.dropLast ++ [b]⟩

/-! ## Basic lemmas about the validation loop -/

/-- The conjunction the loop tests between a block and its predecessor:
the stored hash recomputes to itself and the link matches. -/
def pairOK (prev cur : HerbBlock) : Prop :=
  calculate_hash cur = some cur.hash ∧ cur.previous_hash = prev.hash

theorem validFrom_cons (prev cur : HerbBlock) (rest : List HerbBlock) :
    validFrom prev (cur :: rest) =
      (calculate_hash cur).bind (fun ch =>
        if cur.hash = ch ∧ cur.previous_hash = prev.hash then validFrom cur rest
        else some false) := by
  show Option.bind (calculate_hash cur) _ = Option.bind (calculate_hash cur) _
  cases calculate_hash cur with
  | none => rfl
  | some ch =>
    by_cases h1 : cur.hash = ch <;> by_cases h2 : cur.previous_hash = prev.hash <;>
      simp [h1, h2]

theorem validFrom_eq_true_iff (prev : HerbBlock) (l : List HerbBlock) :
    validFrom prev l = some true ↔
      ∀ pr ∈ (prev :: l).zip l, pairOK pr.1 pr.2 := by
  induction l generalizing prev with
  | nil => simp [validFrom]
  | cons cur rest ih =>
    rw [validFrom_cons, List.zip_cons_cons]
    cases hch : calculate_hash cur with
    | none =>
      simp only [Option.bind]
      constructor
      · intro h; exact absurd h (by simp)
      · intro h
        have h0 := (h (prev, cur) (by simp)).1
        rw [hch] at h0
        exact absurd h0 (by simp)
    | some chv =>
      by_cases hcase : cur.hash = chv ∧ cur.previous_hash = prev.hash
      · simp only [Option.bind, if_pos hcase]
        rw [ih]
        constructor
        · intro h
          intro pr hpr
          rcases List.mem_cons.mp hpr with heq | hmem
          · subst heq
            exact ⟨by rw [hch, hcase.1], hcase.2⟩
          · exact h pr hmem
        · intro h pr hpr
          exact h pr (List.mem_cons_of_mem _ hpr)
      · simp only [Option.bind, if_neg hcase]
        constructor
        · intro h; exact absurd h (by simp)
        · intro h
          exfalso
          apply hcase
          have h0 := h (prev, cur) (by simp)
          refine ⟨?_, h0.2⟩
          have := h0.1
          rw [hch] at this
          exact (Option.some_inj.mp this).symm

theorem validFrom_isSome (prev : HerbBlock) (l : List HerbBlock)
    (hser : ∀ b ∈ l, (calculate_hash b).isSome) :
    (validFrom prev l).isSome := by
  induction l generalizing prev with
  | nil => simp [validFrom]
  | cons cur rest ih =>
    rw [validFrom_cons]
    cases hch : calculate_hash cur with
    | none =>
      have := hser cur (by simp)
      rw [hch] at this
      exact absurd this (by simp)
    | some chv =>
      simp only [Option.bind]
      split
      · exact ih cur (fun b hb => hser b (List.mem_cons_of_mem _ hb))
      · simp

theorem validFrom_append (prev : HerbBlock) (l : List HerbBlock) (b : HerbBlock) :
    validFrom prev (l ++ [b]) =
      (validFrom prev l).bind (fun r =>
        if r then validFrom (l.getLastD prev) [b] else some false) := by
  induction l generalizing prev with
  | nil => simp [validFrom]
  | cons cur rest ih =>
    rw [List.cons_append, validFrom_cons, validFrom_cons]
    cases hch : calculate_hash cur with
    | none => rfl
    | some chv =>
      simp only [Option.bind]
      split
      · rw [ih, List.getLastD_cons]; rfl
      · simp

theorem validFrom_hash_congr (p q : HerbBlock) (l : List HerbBlock)
    (h : p.hash = q.hash) : validFrom p l = validFrom q l := by
  cases l with
  | nil => rfl
  | cons cur rest => rw [validFrom_cons, validFrom_cons, h]

theorem forall_zip_pairs_iff (g : HerbBlock) (rest : List HerbBlock) :
    (∀ pr ∈ (g :: rest).zip rest, pairOK pr.1 pr.2) ↔
      ∀ i (h : i + 1 < (g :: rest).length), pairOK (g :: rest)[i] (g :: rest)[i + 1] := by
  have hlen : ((g :: rest).zip rest).length = rest.length := by
    simp [List.length_zip]
  constructor
  · intro h i hi
    have hi' : i < rest.length := by simpa using hi
    have him : i < ((g :: rest).zip rest).length := by omega
    have hmem : ((g :: rest).zip rest)[i] ∈ (g :: rest).zip rest :=
      List.getElem_mem him
    have hp := h _ hmem
    rw [List.getElem_zip] at hp
    rw [List.getElem_cons_succ]
    exact hp
  · intro h pr hpr
    obtain ⟨i, hi, rfl⟩ := List.mem_iff_getElem.mp hpr
    have hi' : i < rest.length := by omega
    rw [List.getElem_zip]
    have hp := h i (by simpa using hi')
    rwa [List.getElem_cons_succ] at hp

theorem is_chain_valid_true_iff (c : HerbBlockchain) :
    is_chain_valid c = some true ↔
      ∀ i (h : i + 1 < c.chain.length), pairOK c.chain[i] c.chain[i + 1] := by
  obtain ⟨l⟩ := c
  cases l with
  | nil =>
    constructor
    · intro _ i hi
      exact absurd hi (by simp)
    · intro _
      rfl
  | cons g rest =>
    show validFrom g rest = some true ↔ _
    rw [validFrom_eq_true_iff]
    exact forall_zip_pairs_iff g rest

theorem is_chain_valid_isSome (c : HerbBlockchain)
    (hser : ∀ b ∈ c.chain.tail, (calculate_hash b).isSome) :
    (is_chain_valid c).isSome := by
  obtain ⟨l⟩ := c
  cases l with
  | nil => simp [is_chain_valid]
  | cons g rest => exact validFrom_isSome g rest (by simpa using hser)

theorem eq_some_false_of_ne_true {o : Option Bool} (hs : o.isSome)
    (hn : o ≠ some true) : o = some false := by
  cases o with
  | none => simp at hs
  | some b =>
    cases b with
    | true => exact absurd rfl hn
    | false => rfl

/-! ## The construction and append lemmas -/

theorem add_block_some {c : HerbBlockchain} {ts : String} {p : Payload}
    {c' : HerbBlockchain} {b : HerbBlock}
    (h : add_block c ts p = some (c', b)) :
    c'.chain = c.chain ++ [b] ∧ b.index = c.chain.length ∧ b.timestamp = ts ∧
      b.data = p ∧ b.previous_hash = (get_latest_block c).hash ∧
      calculate_hash b = some b.hash := by
  rw [show add_block c ts p =
      (HerbBlock.make c.chain.length ts p (get_latest_block c).hash).bind (fun nb =>
        some (⟨c.chain ++ [nb]⟩, nb)) from rfl] at h
  rw [show HerbBlock.make c.chain.length ts p (get_latest_block c).hash =
      (calcHash c.chain.length ts p (get_latest_block c).hash).bind (fun hv =>
        some ⟨c.chain.length, ts, p, (get_latest_block c).hash, hv⟩) from rfl] at h
  cases hd : calcHash c.chain.length ts p (get_latest_block c).hash with
  | none =>
    rw [hd] at h
    exact absurd h (by simp)
  | some hv =>
    rw [hd] at h
    simp only [Option.some_bind, Option.some_inj, Prod.mk.injEq] at h
    obtain ⟨hc', hb⟩ := h
    subst hb
    subst hc'
    exact ⟨rfl, rfl, rfl, rfl, rfl, hd⟩

theorem add_block_none {c : HerbBlockchain} {ts : String} {p : Payload}
    (hd : jsonDumps p = none) : add_block c ts p = none := by
  unfold add_block HerbBlock.make calcHash
  rw [hd]
  rfl

theorem add_block_isSome {c : HerbBlockchain} {ts : String} {p : Payload}
    (hd : (jsonDumps p).isSome) : (add_block c ts p).isSome := by
  unfold add_block HerbBlock.make calcHash
  cases hj : jsonDumps p with
  | none => rw [hj] at hd; exact absurd hd (by simp)
  | some ds => rfl

theorem jsonDumps_genesisData :
    jsonDumps genesisData =
      some "\x7b\"message\": \"Genesis Block for Herb Authentication\"\x7d" := by
  rfl

theorem genesis_calculate_hash (ts : String) :
    calculate_hash (create_genesis_block ts) =
      some (create_genesis_block ts).hash := by
  show calcHash 0 ts genesisData "0" = _
  unfold calcHash
  rw [jsonDumps_genesisData]
  rfl

theorem getLastD_eq_getElem {α : Type} (l : List α) (d : α) (h : 0 < l.length) :
    l.getLastD d = l[l.length - 1] := by
  rw [List.getLastD_eq_getLast?, List.getLast?_eq_getElem?,
    List.getElem?_eq_getElem (by omega)]
  rfl

theorem get_latest_block_eq (c : HerbBlockchain) (h : 0 < c.chain.length) :
    get_latest_block c = c.chain[c.chain.length - 1] :=
  getLastD_eq_getElem c.chain emptyBlock h

theorem calculate_hash_def (b : HerbBlock) :
    calculate_hash b = calcHash b.index b.timestamp b.data b.previous_hash :=
  rfl

theorem calcHash_isSome_iff (i : Nat) (ts : String) (d : Payload) (ph : String) :
    (calcHash i ts d ph).isSome ↔ (jsonDumps d).isSome := by
  unfold calcHash
  cases jsonDumps d <;> simp

theorem sha256hex_length (s : String) : (sha256hex s).length = 64 := by
  have h8 : ∀ x : Nat, (hex8 x).length = 8 := by
    intro x
    rw [hex8, String.length_mk, List.length_map, List.length_range]
  unfold sha256hex sha256Bytes
  simp [String.length_append, h8]

theorem calcHash_none {i : Nat} {ts : String} {d : Payload} {ph : String}
    (hd : jsonDumps d = none) : calcHash i ts d ph = none := by
  unfold calcHash
  rw [hd]
  rfl

theorem calcHash_eq_some {i : Nat} {ts : String} {d : Payload} {ph ds : String}
    (hd : jsonDumps d = some ds) :
    calcHash i ts d ph = some (sha256hex (toString i ++ ts ++ ds ++ ph)) := by
  unfold calcHash
  rw [hd]
  rfl

theorem calcHash_length {i : Nat} {ts : String} {d : Payload} {ph hv : String}
    (h : calcHash i ts d ph = some hv) : hv.length = 64 := by
  cases hd : jsonDumps d with
  | none =>
    rw [calcHash_none hd] at h
    exact absurd h (by simp)
  | some ds =>
    rw [calcHash_eq_some hd] at h
    have hh : sha256hex (toString i ++ ts ++ ds ++ ph) = hv := Option.some_inj.mp h
    rw [← hh]
    exact sha256hex_length _

/-! ## The invariant of every constructed chain -/

/-- Everything construction guarantees: a genesis head with the sentinel
fields, positional indices, every stored hash recomputable from the
stored fields, and every link equal to the predecessor's stored hash. -/
structure ChainInv (c : HerbBlockchain) : Prop where
  shape : ∃ g rest, c.chain = g :: rest ∧ g.index = 0 ∧ g.previous_hash = "0" ∧
    g.data = genesisData
  idx : ∀ i (h : i < c.chain.length), c.chain[i].index = i
  hash_ok : ∀ i (h : i < c.chain.length),
    calculate_hash c.chain[i] = some c.chain[i].hash
  link : ∀ i (h : i + 1 < c.chain.length),
    c.chain[i + 1].previous_hash = c.chain[i].hash

theorem reachable_inv {c : HerbBlockchain} (hr : Reachable c) : ChainInv c := by
  induction hr with
  | init ts =>
    refine ⟨⟨create_genesis_block ts, [], rfl, rfl, rfl, rfl⟩, ?_, ?_, ?_⟩
    · intro i h
      have hl : (HerbBlockchain.init ts).chain.length = 1 := rfl
      have hi : i = 0 := by omega
      subst hi
      rfl
    · intro i h
      have hl : (HerbBlockchain.init ts).chain.length = 1 := rfl
      have hi : i = 0 := by omega
      subst hi
      exact genesis_calculate_hash ts
    · intro i h
      have hl : (HerbBlockchain.init ts).chain.length = 1 := rfl
      omega
  | step c ts p c' b _ hadd ih =>
    obtain ⟨hc', hbidx, _, _, hbph, hbhash⟩ := add_block_some hadd
    obtain ⟨l'⟩ := c'
    have hc2 : l' = c.chain ++ [b] := hc'
    subst hc2
    have hL : ((⟨c.chain ++ [b]⟩ : HerbBlockchain)).chain.length
        = c.chain.length + 1 := by
      show (c.chain ++ [b]).length = _
      simp
    have hpos : 0 < c.chain.length := by
      obtain ⟨g, rest, hg, _⟩ := ih.shape
      rw [hg]
      exact Nat.succ_pos _
    have hget : ∀ i (hi : i < c.chain.length) (hib : i < (c.chain ++ [b]).length),
        (c.chain ++ [b])[i] = c.chain[i] := by
      intro i hi hib
      exact List.getElem_append_left hi
    have hlast : ∀ (w : c.chain.length < (c.chain ++ [b]).length),
        (c.chain ++ [b])[c.chain.length] = b :=
      fun w => List.getElem_concat_length _ _ _ rfl w
    refine ⟨?_, ?_, ?_, ?_⟩
    · obtain ⟨g, rest, hg, h0, hph, hdata⟩ := ih.shape
      exact ⟨g, rest ++ [b], by show c.chain ++ [b] = _; rw [hg]; rfl, h0, hph, hdata⟩
    · intro i h
      have h' : i < (c.chain ++ [b]).length := h
      have hlen' : (c.chain ++ [b]).length = c.chain.length + 1 := by simp
      show (c.chain ++ [b])[i].index = i
      rcases Nat.lt_or_ge i c.chain.length with hi | hi
      · rw [hget i hi h']
        exact ih.idx i hi
      · have hi' : i = c.chain.length := by omega
        subst hi'
        rw [hlast (by omega)]
        exact hbidx
    · intro i h
      have h' : i < (c.chain ++ [b]).length := h
      have hlen' : (c.chain ++ [b]).length = c.chain.length + 1 := by simp
      show calculate_hash ((c.chain ++ [b])[i]) = some ((c.chain ++ [b])[i]).hash
      rcases Nat.lt_or_ge i c.chain.length with hi | hi
      · rw [hget i hi h']
        exact ih.hash_ok i hi
      · have hi' : i = c.chain.length := by omega
        subst hi'
        rw [hlast (by omega)]
        exact hbhash
    · intro i h
      have h' : i + 1 < (c.chain ++ [b]).length := h
      have hlen' : (c.chain ++ [b]).length = c.chain.length + 1 := by simp
      show ((c.chain ++ [b])[i + 1]).previous_hash = ((c.chain ++ [b])[i]).hash
      rcases Nat.lt_or_ge (i + 1) c.chain.length with hi | hi
      · rw [hget i (by omega) (by omega), hget (i + 1) hi h']
        exact ih.link i hi
      · have hi' : i + 1 = c.chain.length := by omega
        have hb1 : (c.chain ++ [b])[i + 1] = b :=
          List.getElem_concat_length _ _ _ hi' h'
        have hbi : c.chain.length - 1 = i := by omega
        rw [hb1, hget i (by omega) (by omega), hbph, get_latest_block_eq c hpos]
        simp only [hbi]

theorem inv_valid {c : HerbBlockchain} (hi : ChainInv c) :
    is_chain_valid c = some true := by
  rw [is_chain_valid_true_iff]
  intro i h
  exact ⟨hi.hash_ok (i + 1) h, hi.link i h⟩

theorem make_none {i : Nat} {ts : String} {d : Payload} {ph : String}
    (hd : jsonDumps d = none) : HerbBlock.make i ts d ph = none := by
  unfold HerbBlock.make
  rw [calcHash_none hd]
  rfl

theorem make_eq_some {i : Nat} {ts : String} {d : Payload} {ph ds : String}
    (hd : jsonDumps d = some ds) :
    HerbBlock.make i ts d ph =
      some ⟨i, ts, d, ph, sha256hex (toString i ++ ts ++ ds ++ ph)⟩ := by
  unfold HerbBlock.make
  rw [calcHash_eq_some hd]
  rfl

theorem is_chain_valid_isSome2 (c : HerbBlockchain)
    (hser : ∀ j (hj : j < c.chain.length), 1 ≤ j →
      (calculate_hash c.chain[j]).isSome) :
    (is_chain_valid c).isSome := by
  obtain ⟨l⟩ := c
  cases l with
  | nil => simp [is_chain_valid]
  | cons g rest =>
    apply validFrom_isSome
    intro b hb
    obtain ⟨j, hj, rfl⟩ := List.mem_iff_getElem.mp hb
    have hs := hser (j + 1) (by simpa using Nat.succ_lt_succ hj) (by omega)
    rwa [List.getElem_cons_succ] at hs

theorem valid_tail_serializable {c : HerbBlockchain}
    (hv : is_chain_valid c = some true) :
    ∀ j (hj : j < c.chain.length), 1 ≤ j → (calculate_hash c.chain[j]).isSome := by
  intro j hj h1
  have hchar := (is_chain_valid_true_iff c).mp hv (j - 1) (by omega)
  have hjj : j - 1 + 1 = j := by omega
  simp only [hjj] at hchar
  rw [hchar.1]
  rfl

theorem setBlock_invalid_self (c : HerbBlockchain)
    (hv : is_chain_valid c = some true) (i : Nat) (h1 : 1 ≤ i)
    (hlen : i < c.chain.length) (b' : HerbBlock)
    (hser : (calculate_hash b').isSome)
    (hbad : ¬ pairOK c.chain[i - 1] b') :
    is_chain_valid (setBlock c i b') = some false := by
  have hslen : (setBlock c i b').chain.length = c.chain.length :=
    List.length_set _ _ _
  apply eq_some_false_of_ne_true
  · apply is_chain_valid_isSome2
    intro j hj hj1
    have hj' : j < c.chain.length := by omega
    by_cases hij : j = i
    · subst hij
      have hjs : j < (c.chain.set j b').length := by rw [List.length_set]; omega
      have e : (setBlock c j b').chain[j] = b' := List.getElem_set_self hjs
      rw [e]
      exact hser
    · have hjs : j < (c.chain.set i b').length := by rw [List.length_set]; omega
      have e : (setBlock c i b').chain[j] = c.chain[j] :=
        List.getElem_set_ne (fun hcc => hij hcc.symm) hjs
      rw [e]
      exact valid_tail_serializable hv j hj' hj1
  · intro htrue
    have hb : i - 1 + 1 < (setBlock c i b').chain.length := by omega
    have hchar := (is_chain_valid_true_iff _).mp htrue (i - 1) hb
    have hii : i - 1 + 1 = i := by omega
    simp only [hii] at hchar
    have hjs : i < (c.chain.set i b').length := by rw [List.length_set]; omega
    have hjs' : i - 1 < (c.chain.set i b').length := by rw [List.length_set]; omega
    have e1 : (setBlock c i b').chain[i] = b' := List.getElem_set_self hjs
    have e2 : (setBlock c i b').chain[i - 1] = c.chain[i - 1] :=
      List.getElem_set_ne (by omega) hjs'
    rw [e1, e2] at hchar
    exact hbad hchar

theorem setBlock_invalid_next (c : HerbBlockchain)
    (hv : is_chain_valid c = some true) (i : Nat)
    (hlen : i + 1 < c.chain.length) (b' : HerbBlock)
    (hser : (calculate_hash b').isSome)
    (hne : c.chain[i + 1].previous_hash ≠ b'.hash) :
    is_chain_valid (setBlock c i b') = some false := by
  have hslen : (setBlock c i b').chain.length = c.chain.length :=
    List.length_set _ _ _
  apply eq_some_false_of_ne_true
  · apply is_chain_valid_isSome2
    intro j hj hj1
    have hj' : j < c.chain.length := by omega
    by_cases hij : j = i
    · subst hij
      have hjs : j < (c.chain.set j b').length := by rw [List.length_set]; omega
      have e : (setBlock c j b').chain[j] = b' := List.getElem_set_self hjs
      rw [e]
      exact hser
    · have hjs : j < (c.chain.set i b').length := by rw [List.length_set]; omega
      have e : (setBlock c i b').chain[j] = c.chain[j] :=
        List.getElem_set_ne (fun hcc => hij hcc.symm) hjs
      rw [e]
      exact valid_tail_serializable hv j hj' hj1
  · intro htrue
    have hb : i + 1 < (setBlock c i b').chain.length := by omega
    have hchar := (is_chain_valid_true_iff _).mp htrue i hb
    have hjs : i < (c.chain.set i b').length := by rw [List.length_set]; omega
    have hjs' : i + 1 < (c.chain.set i b').length := by rw [List.length_set]; omega
    have e1 : (setBlock c i b').chain[i] = b' := List.getElem_set_self hjs
    have e2 : (setBlock c i b').chain[i + 1] = c.chain[i + 1] :=
      List.getElem_set_ne (by omega) hjs'
    rw [e1, e2] at hchar
    exact hne hchar.2

theorem find?_hash_self (l : List HerbBlock)
    (hdist : l.Pairwise (fun a b => a.hash ≠ b.hash)) (b : HerbBlock)
    (hb : b ∈ l) : l.find? (fun blk => blk.hash == b.hash) = some b := by
  induction l with
  | nil => simp at hb
  | cons g rest ih =>
    rw [List.find?_cons]
    rcases List.mem_cons.mp hb with rfl | hmem
    · simp
    · have hne : g.hash ≠ b.hash := (List.pairwise_cons.mp hdist).1 b hmem
      have hf : (g.hash == b.hash) = false := by simpa using hne
      rw [hf]
      exact ih (List.pairwise_cons.mp hdist).2 hmem

/-! ## Concrete chains, for closed instances of the theorems -/

/-- A farmer submission like the ones the submission route builds. -/
def wp1 : Payload :=
  [("farmer_name", PVal.pstr "Asha"), ("herb_type", PVal.pstr "Tulsi"),
   ("location", PVal.pstr "Pune"), ("cost_per_kg", PVal.pint 150)]

/-- A second farmer submission. -/
def wp2 : Payload :=
  [("farmer_name", PVal.pstr "Ravi"), ("herb_type", PVal.pstr "Neem"),
   ("cost_per_kg", PVal.pint 95)]

/-- A payload holding a value `json.dumps` cannot encode. -/
def wpbad : Payload :=
  [("farmer_name", PVal.pstr "Asha"), ("photo", PVal.pobj "PIL.Image.Image")]

/-- A fresh chain: genesis only. -/
def wc0 : HerbBlockchain := HerbBlockchain.init "2024-01-01T09:00:00"

/-- The chain after one submission. -/
def wc1 : HerbBlockchain := (addD wc0 "2024-01-02T09:00:00" wp1).1

/-- The block that submission returned. -/
def wb1 : HerbBlock := (addD wc0 "2024-01-02T09:00:00" wp1).2

/-- The chain after two submissions. -/
def wc2 : HerbBlockchain := (addD wc1 "2024-01-03T09:00:00" wp2).1

/-- The block the second submission returned. -/
def wb2 : HerbBlock := (addD wc1 "2024-01-03T09:00:00" wp2).2

theorem wc1_reachable : Reachable wc1 :=
  Reachable.step wc0 "2024-01-02T09:00:00" wp1 wc1 wb1 (Reachable.init _)
    (by decide)

theorem wc2_reachable : Reachable wc2 :=
  Reachable.step wc1 "2024-01-03T09:00:00" wp2 wc2 wb2 wc1_reachable
    (by decide)

/-! ## The claims -/

/-- C3: every chain obtained from a fresh chain by a finite sequence of
successful appends passes `is_chain_valid`, and for every position at
least 1 the stored `previous_hash` equals the predecessor's stored hash
and the stored hash recomputes from the stored fields. -/
theorem C3_chain_of_custody (c : HerbBlockchain) (hr : Reachable c) :
    is_chain_valid c = some true ∧
      ∀ i (h : i < c.chain.length), 1 ≤ i →
        c.chain[i].previous_hash = c.chain[i - 1].hash ∧
        calculate_hash c.chain[i] = some c.chain[i].hash := by
  have hi := reachable_inv hr
  refine ⟨inv_valid hi, ?_⟩
  intro i h h1
  have hl := hi.link (i - 1) (by omega)
  have hii : i - 1 + 1 = i := by omega
  simp only [hii] at hl
  exact ⟨hl, hi.hash_ok i h⟩

/-- C3, closed instance: the two-block chain built by one append. -/
theorem C3_witness :
    is_chain_valid wc1 = some true ∧
      (wc1.chain.get ⟨1, by decide⟩).previous_hash =
        (wc1.chain.get ⟨0, by decide⟩).hash ∧
      calculate_hash (wc1.chain.get ⟨1, by decide⟩) =
        some (wc1.chain.get ⟨1, by decide⟩).hash := by
  have h := C3_chain_of_custody wc1 wc1_reachable
  have h2 := h.2 1 (by decide) (by omega)
  exact ⟨h.1, h2.1, h2.2⟩

/-- C4: a successful `add_block` makes the returned block the tail, links
it to the hash of the block that was the tail before the call, and
preserves validity. -/
theorem C4_append_linkage (c c' : HerbBlockchain) (b : HerbBlock)
    (ts : String) (p : Payload) (h : add_block c ts p = some (c', b)) :
    get_latest_block c' = b ∧
      b.previous_hash = (get_latest_block c).hash ∧
      (is_chain_valid c = some true → is_chain_valid c' = some true) := by
  obtain ⟨hc', _, _, _, hbph, hbhash⟩ := add_block_some h
  obtain ⟨l'⟩ := c'
  have hl' : l' = c.chain ++ [b] := hc'
  subst hl'
  refine ⟨?_, hbph, ?_⟩
  · show (c.chain ++ [b]).getLastD emptyBlock = b
    exact List.getLastD_concat _ _ _
  · intro hv
    obtain ⟨l⟩ := c
    cases l with
    | nil => rfl
    | cons g rest =>
      show validFrom g (rest ++ [b]) = some true
      have hv' : validFrom g rest = some true := hv
      rw [validFrom_append, hv']
      show validFrom (rest.getLastD g) [b] = some true
      rw [validFrom_cons, hbhash]
      have hcond : b.hash = b.hash ∧ b.previous_hash = (rest.getLastD g).hash := by
        refine ⟨rfl, ?_⟩
        rw [hbph]
        show ((g :: rest).getLastD emptyBlock).hash = _
        rw [List.getLastD_cons]
      rw [Option.some_bind, if_pos hcond]
      rfl

/-- C4, closed instance: the second append onto the one-append chain. -/
theorem C4_witness :
    get_latest_block wc2 = wb2 ∧
      wb2.previous_hash = (get_latest_block wc1).hash ∧
      (is_chain_valid wc1 = some true → is_chain_valid wc2 = some true) :=
  C4_append_linkage wc1 wc2 wb2 "2024-01-03T09:00:00" wp2 (by decide)

/-- C5: block construction is deterministic — identical inputs give
identical results, in particular identical hashes — and recomputing the
digest from a constructed block's stored fields reproduces the stored
hash.  In this embedding the constructor is a pure function of exactly
the four content fields, so purity is structural. -/
theorem C5_hash_determinism (i i' : Nat) (ts ts' : String) (d d' : Payload)
    (ph ph' : String) (h1 : i = i') (h2 : ts = ts') (h3 : d = d')
    (h4 : ph = ph') :
    HerbBlock.make i ts d ph = HerbBlock.make i' ts' d' ph' ∧
      ∀ b, HerbBlock.make i ts d ph = some b →
        calculate_hash b = some b.hash := by
  subst h1
  subst h2
  subst h3
  subst h4
  refine ⟨rfl, ?_⟩
  intro b hb
  cases hd : jsonDumps d with
  | none =>
    rw [make_none hd] at hb
    exact absurd hb (by simp)
  | some ds =>
    rw [make_eq_some hd] at hb
    have hbv := Option.some_inj.mp hb
    subst hbv
    show calcHash i ts d ph = _
    rw [calcHash_eq_some hd]

/-- C5, closed instance: a concrete constructed block recomputes to its
own stored hash. -/
theorem C5_witness :
    HerbBlock.make 1 "t" wp1 "0" = HerbBlock.make 1 "t" wp1 "0" ∧
      calculate_hash ((HerbBlock.make 1 "t" wp1 "0").getD emptyBlock) =
        some ((HerbBlock.make 1 "t" wp1 "0").getD emptyBlock).hash := by
  have h := C5_hash_determinism 1 1 "t" "t" wp1 wp1 "0" "0" rfl rfl rfl rfl
  exact ⟨h.1, h.2 _ (by decide)⟩

/-- C7: every constructed chain is non-empty, starts with the genesis
block (index 0, sentinel previous hash, the genesis payload), indexes
blocks by position, and no block after position 0 carries the sentinel
previous hash (every real link is a 64-character digest), so the genesis
block exists exactly once, at position 0. -/
theorem C7_genesis_indexing (c : HerbBlockchain) (hr : Reachable c) :
    c.chain ≠ [] ∧
      (∀ h0 : 0 < c.chain.length,
        c.chain[0].index = 0 ∧ c.chain[0].previous_hash = "0" ∧
        c.chain[0].data = genesisData) ∧
      (∀ i (h : i < c.chain.length), c.chain[i].index = i) ∧
      (∀ i (h : i < c.chain.length), 1 ≤ i →
        c.chain[i].previous_hash ≠ "0") := by
  have hi := reachable_inv hr
  obtain ⟨g, rest, hg, h0, hph, hdata⟩ := hi.shape
  refine ⟨by rw [hg]; simp, ?_, hi.idx, ?_⟩
  · intro hl
    have hc0 : c.chain[0] = g := by simp [hg]
    rw [hc0]
    exact ⟨h0, hph, hdata⟩
  · intro i h h1
    have hl := hi.link (i - 1) (by omega)
    have hii : i - 1 + 1 = i := by omega
    simp only [hii] at hl
    rw [hl]
    have h64 : (c.chain[i - 1].hash).length = 64 :=
      calcHash_length (hi.hash_ok (i - 1) (by omega))
    intro heq
    rw [heq] at h64
    exact absurd h64 (by decide)

/-- C7, closed instance: the two-append chain. -/
theorem C7_witness :
    wc2.chain ≠ [] ∧
      (wc2.chain.get ⟨0, by decide⟩).index = 0 ∧
      (wc2.chain.get ⟨0, by decide⟩).previous_hash = "0" ∧
      (wc2.chain.get ⟨2, by decide⟩).index = 2 ∧
      (wc2.chain.get ⟨2, by decide⟩).previous_hash ≠ "0" := by
  have h := C7_genesis_indexing wc2 wc2_reachable
  have hg := h.2.1 (by decide)
  exact ⟨h.1, hg.1, hg.2.1, h.2.2.1 2 (by decide),
    h.2.2.2 2 (by decide) (by omega)⟩

/-- C8: `add_block` either succeeds outright — the new block exists and
the new chain is exactly the old sequence with it appended — or, when
the payload holds a value `json.dumps` cannot encode, fails before any
mutation: no chain value is produced at all, the caller keeps the old
sequence. -/
theorem C8_append_atomicity (c : HerbBlockchain) (ts : String) (p : Payload) :
    ((jsonDumps p).isSome →
      ∃ c' b, add_block c ts p = some (c', b) ∧ c'.chain = c.chain ++ [b]) ∧
      (jsonDumps p = none → add_block c ts p = none) := by
  constructor
  · intro hs
    cases ha : add_block c ts p with
    | none =>
      have hsome := @add_block_isSome c ts p hs
      rw [ha] at hsome
      exact absurd hsome (by simp)
    | some pr =>
      obtain ⟨c', b⟩ := pr
      exact ⟨c', b, rfl, (add_block_some ha).1⟩
  · intro hn
    exact add_block_none hn

/-- C8, closed instance: a serializable payload appends; a payload with
an unserializable value leaves `add_block` with no result. -/
theorem C8_witness :
    (∃ c' b, add_block wc0 "2024-01-02T09:00:00" wp1 = some (c', b) ∧
      c'.chain = wc0.chain ++ [b]) ∧
      add_block wc0 "t" wpbad = none :=
  ⟨(C8_append_atomicity wc0 "2024-01-02T09:00:00" wp1).1 (by decide),
   (C8_append_atomicity wc0 "t" wpbad).2 (by decide)⟩

/-- C9: the validation loop starts at position 1 and reads nothing of the
genesis block but its stored `hash`, so replacing the genesis block by
any block with the same stored hash — its payload, index, timestamp or
previous hash arbitrarily mutated — leaves `is_chain_valid` unchanged,
in particular still `true` on a valid chain. -/
theorem C9_genesis_blind_spot (c : HerbBlockchain) (g : HerbBlock)
    (rest : List HerbBlock) (hc : c.chain = g :: rest) (g' : HerbBlock)
    (hh : g'.hash = g.hash) :
    is_chain_valid ⟨g' :: rest⟩ = is_chain_valid c ∧
      (is_chain_valid c = some true →
        is_chain_valid ⟨g' :: rest⟩ = some true) := by
  obtain ⟨l⟩ := c
  have hl : l = g :: rest := hc
  subst hl
  have heq : is_chain_valid ⟨g' :: rest⟩ = is_chain_valid (⟨g :: rest⟩ : HerbBlockchain) := by
    show validFrom g' rest = validFrom g rest
    exact validFrom_hash_congr g' g rest hh
  exact ⟨heq, fun hv => heq.trans hv⟩

/-- C9, closed instance: gutting the genesis payload while keeping its
stored hash leaves the two-block chain fully valid. -/
theorem C9_witness :
    is_chain_valid
        ⟨{ wc1.chain.getD 0 emptyBlock with
            data := [("message", PVal.pstr "EVIL GENESIS")] } :: wc1.chain.tail⟩ =
      is_chain_valid wc1 ∧
      is_chain_valid
        ⟨{ wc1.chain.getD 0 emptyBlock with
            data := [("message", PVal.pstr "EVIL GENESIS")] } :: wc1.chain.tail⟩ =
      some true := by
  have h := C9_genesis_blind_spot wc1 (wc1.chain.getD 0 emptyBlock)
    wc1.chain.tail (by decide)
    { wc1.chain.getD 0 emptyBlock with
        data := [("message", PVal.pstr "EVIL GENESIS")] } (by decide)
  exact ⟨h.1, h.2 (by decide)⟩

/-- C1 as written is false of the code: `json.dumps` is called without
`sort_keys`, so it emits the entries in dict insertion order.  Two
payloads holding the same key-to-value associations in different
insertion orders — a permutation of one another — serialize to different
strings, and the two blocks built from them with identical index,
timestamp and previous hash get different hashes. -/
theorem C1_counterexample :
    List.Perm ([("a", PVal.pint 1), ("b", PVal.pint 2)] : Payload)
      [("b", PVal.pint 2), ("a", PVal.pint 1)] ∧
      jsonDumps [("a", PVal.pint 1), ("b", PVal.pint 2)] ≠
        jsonDumps [("b", PVal.pint 2), ("a", PVal.pint 1)] ∧
      (HerbBlock.make 0 "2024-01-01T09:00:00"
          [("a", PVal.pint 1), ("b", PVal.pint 2)] "0").map HerbBlock.hash ≠
        (HerbBlock.make 0 "2024-01-01T09:00:00"
          [("b", PVal.pint 2), ("a", PVal.pint 1)] "0").map HerbBlock.hash :=
  ⟨by decide, by decide, by decide⟩

/-- C1 amended: serialization is deterministic but only canonical up to
insertion order — whenever two payloads serialize to the same string
(in particular, identical associations in identical order), blocks built
from them with the same index, timestamp and previous hash have equal
hashes. -/
theorem C1_serialization_canonical (i : Nat) (ts ph : String)
    (p q : Payload) (h : jsonDumps p = jsonDumps q) :
    (HerbBlock.make i ts p ph).map HerbBlock.hash =
      (HerbBlock.make i ts q ph).map HerbBlock.hash := by
  cases hd : jsonDumps p with
  | none =>
    rw [hd] at h
    rw [make_none hd, make_none h.symm]
  | some ds =>
    rw [hd] at h
    rw [make_eq_some hd, make_eq_some h.symm]
    rfl

/-- C1 amended, closed instance. -/
theorem C1_witness :
    (HerbBlock.make 1 "2024-01-02T09:00:00" wp1 "0").map HerbBlock.hash =
      (HerbBlock.make 1 "2024-01-02T09:00:00" wp1 "0").map HerbBlock.hash :=
  C1_serialization_canonical 1 "2024-01-02T09:00:00" "0" wp1 wp1 rfl

/-- C2: tamper detection on a valid chain, for a non-genesis position
`i`.  Replacing the payload or the index while keeping the stored hash is
caught by the hash-recomputation check, stated under the hypothesis that
the recomputed digest really differs from the stored one (the concrete
no-collision instance of the spec's collision-resistance assumption for
SHA-256); replacing `previous_hash` is caught outright; and re-signing a
tampered block whose digest changed while the successor still holds the
old hash is caught by the link check. -/
theorem C2_tamper_detection (c : HerbBlockchain)
    (hv : is_chain_valid c = some true) (i : Nat) (h1 : 1 ≤ i)
    (hlen : i < c.chain.length) :
    (∀ d', (jsonDumps d').isSome →
      calcHash c.chain[i].index c.chain[i].timestamp d'
          c.chain[i].previous_hash ≠ some c.chain[i].hash →
      is_chain_valid (setBlock c i { c.chain[i] with data := d' }) = some false) ∧
      (∀ ph', ph' ≠ c.chain[i].previous_hash →
        is_chain_valid (setBlock c i { c.chain[i] with previous_hash := ph' }) =
          some false) ∧
      (∀ ix', calcHash ix' c.chain[i].timestamp c.chain[i].data
          c.chain[i].previous_hash ≠ some c.chain[i].hash →
        is_chain_valid (setBlock c i { c.chain[i] with index := ix' }) =
          some false) ∧
      (∀ b', b'.hash ≠ c.chain[i].hash → calculate_hash b' = some b'.hash →
        ∀ hnext : i + 1 < c.chain.length,
        is_chain_valid (setBlock c i b') = some false) := by
  have hchar := (is_chain_valid_true_iff c).mp hv
  have oldser : (calculate_hash c.chain[i]).isSome :=
    valid_tail_serializable hv i hlen h1
  rw [calculate_hash_def] at oldser
  have oldjson : (jsonDumps c.chain[i].data).isSome :=
    (calcHash_isSome_iff _ _ _ _).mp oldser
  refine ⟨?_, ?_, ?_, ?_⟩
  · intro d' hd hne
    apply setBlock_invalid_self c hv i h1 hlen
    · exact (calcHash_isSome_iff _ _ _ _).mpr hd
    · intro hp
      exact hne hp.1
  · intro ph' hne
    have hlink := (hchar (i - 1) (by omega)).2
    have hii : i - 1 + 1 = i := by omega
    simp only [hii] at hlink
    apply setBlock_invalid_self c hv i h1 hlen
    · exact (calcHash_isSome_iff _ _ _ _).mpr oldjson
    · intro hp
      exact hne (hp.2.trans hlink.symm)
  · intro ix' hne
    apply setBlock_invalid_self c hv i h1 hlen
    · exact (calcHash_isSome_iff _ _ _ _).mpr oldjson
    · intro hp
      exact hne hp.1
  · intro b' hneq hsig hnext
    apply setBlock_invalid_next c hv i hnext
    · rw [hsig]
      rfl
    · have hlink := (hchar i hnext).2
      rw [hlink]
      exact hneq.symm

/-- C2, closed instances on the three-block chain: a payload swap, a
previous-hash swap, an index swap (all keeping the stored hash), and a
re-signed payload swap with a live successor, each reported invalid. -/
theorem C2_witness :
    is_chain_valid (setBlock wc2 1
        { wc2.chain.get ⟨1, by decide⟩ with
            data := [("herb_type", PVal.pstr "Ashwagandha")] }) = some false ∧
      is_chain_valid (setBlock wc2 1
        { wc2.chain.get ⟨1, by decide⟩ with previous_hash := "ff" }) = some false ∧
      is_chain_valid (setBlock wc2 1
        { wc2.chain.get ⟨1, by decide⟩ with index := 7 }) = some false ∧
      is_chain_valid (setBlock wc2 1
        (resign { wc2.chain.get ⟨1, by decide⟩ with
            data := [("herb_type", PVal.pstr "Ashwagandha")] })) = some false := by
  have h := C2_tamper_detection wc2 (by decide) 1 (by omega) (by decide)
  exact ⟨h.1 _ (by decide) (by decide), h.2.1 "ff" (by decide),
    h.2.2.1 7 (by decide), h.2.2.2 _ (by decide) (by decide) (by decide)⟩

/-- C6: the verification route's scan is exact-match lookup — on a chain
whose stored hashes are pairwise distinct it returns each block for that
block's own hash, it returns nothing for a hash no block carries, and
anything it returns is a block of the chain whose hash equals the query
string exactly (case-sensitive, no prefix matching). -/
theorem C6_lookup_correctness (c : HerbBlockchain)
    (hdist : c.chain.Pairwise (fun a b => a.hash ≠ b.hash)) :
    (∀ b ∈ c.chain, findByHash c b.hash = some b) ∧
      (∀ x, (∀ b ∈ c.chain, b.hash ≠ x) → findByHash c x = none) ∧
      (∀ x b, findByHash c x = some b → b ∈ c.chain ∧ b.hash = x) := by
  refine ⟨?_, ?_, ?_⟩
  · intro b hb
    exact find?_hash_self c.chain hdist b hb
  · intro x hx
    apply List.find?_eq_none.mpr
    intro b hb
    simpa using hx b hb
  · intro x b hf
    exact ⟨List.mem_of_find?_eq_some hf, by simpa using List.find?_some hf⟩

/-- C6, closed instances: hit, miss, and the exactness of a hit. -/
theorem C6_witness :
    findByHash wc1 wb1.hash = some wb1 ∧
      findByHash wc1 "ba7816bf" = none ∧
      (wb1 ∈ wc1.chain ∧ wb1.hash = wb1.hash) := by
  have h := C6_lookup_correctness wc1 (by decide)
  have hhit := h.1 wb1 (by decide)
  exact ⟨hhit, h.2.1 "ba7816bf" (by decide), h.2.2 wb1.hash wb1 hhit⟩

/-- C10 as written is false of the code: `previous_hash` is one of the
tail's fields, and a tail whose `previous_hash` was mutated and whose
stored hash was then recomputed from the new fields is still caught by
the link check against the predecessor.  Concretely: the two-block chain
is valid, the mutated-and-re-signed tail differs from the old tail only
in `previous_hash` and in the recomputed `hash`, yet validation reports
`false`. -/
theorem C10_counterexample :
    is_chain_valid wc1 = some true ∧
      (resign { wb1 with previous_hash := "deadbeef" }).data = wb1.data ∧
      (resign { wb1 with previous_hash := "deadbeef" }).index = wb1.index ∧
      (resign { wb1 with previous_hash := "deadbeef" }).timestamp = wb1.timestamp ∧
      (resign { wb1 with previous_hash := "deadbeef" }).previous_hash ≠
        wb1.previous_hash ∧
      calculate_hash (resign { wb1 with previous_hash := "deadbeef" }) =
        some (resign { wb1 with previous_hash := "deadbeef" }).hash ∧
      get_latest_block wc1 = wb1 ∧
      is_chain_valid
        (setTail wc1 (resign { wb1 with previous_hash := "deadbeef" })) =
        some false :=
  ⟨by decide, by decide, by decide, by decide, by decide, by decide,
   by decide, by decide⟩

/-- C10 amended: re-signing a mutation of the tail block escapes
validation as long as the mutation leaves `previous_hash` intact — the
payload, timestamp and index can change arbitrarily, and with the stored
hash recomputed from the new fields the chain still validates, because no
successor exists whose `previous_hash` could expose the change. -/
theorem C10_tail_resign_blind_spot (c : HerbBlockchain)
    (hv : is_chain_valid c = some true) (l : List HerbBlock) (b : HerbBlock)
    (hc : c.chain = l ++ [b]) (b' : HerbBlock)
    (hph : b'.previous_hash = b.previous_hash)
    (hsig : calculate_hash b' = some b'.hash) :
    is_chain_valid ⟨l ++ [b']⟩ = some true := by
  obtain ⟨cl⟩ := c
  have hcl : cl = l ++ [b] := hc
  subst hcl
  cases l with
  | nil => rfl
  | cons g rest =>
    have hv' : validFrom g (rest ++ [b]) = some true := hv
    rw [validFrom_append] at hv'
    show validFrom g (rest ++ [b']) = some true
    rw [validFrom_append]
    cases hr : validFrom g rest with
    | none => rw [hr] at hv'; exact absurd hv' (by simp)
    | some r =>
      rw [hr] at hv'
      cases r with
      | false => exact absurd hv' (by simp)
      | true =>
        rw [Option.some_bind] at hv' ⊢
        rw [if_pos rfl] at hv' ⊢
        rw [validFrom_cons] at hv'
        rw [validFrom_cons, hsig, Option.some_bind]
        have hbold : b.previous_hash = (rest.getLastD g).hash := by
          cases hch : calculate_hash b with
          | none => rw [hch] at hv'; exact absurd hv' (by simp)
          | some cv =>
            rw [hch, Option.some_bind] at hv'
            by_cases hcond : b.hash = cv ∧ b.previous_hash = (rest.getLastD g).hash
            · exact hcond.2
            · rw [if_neg hcond] at hv'
              exact absurd hv' (by simp)
        have hcond' : b'.hash = b'.hash ∧
            b'.previous_hash = (rest.getLastD g).hash :=
          ⟨rfl, by rw [hph, hbold]⟩
        rw [if_pos hcond']
        rfl

/-- The tail of the two-block chain with its payload and index mutated
and its stored hash recomputed from the new fields. -/
def wtail : HerbBlock :=
  resign { wb1 with data := [("herb_type", PVal.pstr "FAKE")], index := 99 }

/-- C10 amended, closed instance: gut the tail's payload and index, keep
its link, re-sign it — the two-block chain still validates. -/
theorem C10_witness :
    is_chain_valid ⟨wc1.chain.dropLast ++ [wtail]⟩ = some true := by
  have h := C10_tail_resign_blind_spot wc1 (by decide) wc1.chain.dropLast wb1
    (by decide) wtail (by decide) (by decide)
  exact h

end HerbLedger
